import Mathlib

/-!
Shallow embedding of the row-codec and value-model core of rust-msi:
src/internal/value.rs (the Value and ValueRef types) and src/internal/table.rs
(the Table row codec and the Row/Rows iterator).  Stateful pool operations are
translated in explicit state-passing style; Rust panics become Option.none;
byte streams become lists of naturals.  The StringPool, the Column schema entry
and the ColumnType codec contract are external collaborators of this module and
are modelled from the spec where noted.
-/

/-- A value from one cell in a database table row (value.rs, enum Value). -/
inductive Value where
  | Null : Value
  | Int : ℤ → Value
  | Str : String → Value
  deriving DecidableEq

/-- Returns true if this is a null value (value.rs, Value::is_null). -/
def Value.is_null : Value → Bool
  | .Null => true
  | _ => false

/-- Returns true if this is an integer value (value.rs, Value::is_int). -/
def Value.is_int : Value → Bool
  | .Int _ => true
  | _ => false

/-- Extracts the integer value if it is an integer (value.rs, Value::as_int). -/
def Value.as_int : Value → Option ℤ
  | .Null => none
  | .Int number => some number
  | .Str _ => none

/-- Returns true if this is a string value (value.rs, Value::is_str). -/
def Value.is_str : Value → Bool
  | .Str _ => true
  | _ => false

/-- Extracts the string value if it is a string (value.rs, Value::as_str). -/
def Value.as_str : Value → Option String
  | .Null => none
  | .Int _ => none
  | .Str string => some string

/-- Creates a boolean value (value.rs, Value::from_bool). -/
def Value.from_bool (boolean : Bool) : Value :=
  if boolean then Value.Int 1 else Value.Int 0

/-- Coerces the Value to a boolean (value.rs, Value::to_bool): false for null,
zero, and empty string; true for all other values. -/
def Value.to_bool : Value → Bool
  | .Null => false
  | .Int number => number != 0
  | .Str string => !string.isEmpty

/-- Modelled from the spec: a handle is "an integer identifier assigned by the
string pool to one interned string" (src/internal/stringpool.rs is not part of
the corpus). -/
abbrev StringRef := Nat

/-- Modelled from the spec: the external StringPool maps a handle (here the
list index) to (text, reference count); an entry whose count is 0 is retired
(src/internal/stringpool.rs is not part of the corpus). -/
structure StringPool where
  entries : List (String × Nat)
  deriving DecidableEq

/-- Modelled from the spec: incref deduplicates against the first live entry
with equal text, bumping its count; otherwise it allocates a new entry with
count 1.  Returns the handle together with the updated entry list. -/
def increfAux : List (String × Nat) → String → Nat × List (String × Nat)
  | [], s => (0, [(s, 1)])
  | e :: es, s =>
    if e.1 = s ∧ 0 < e.2 then (0, (e.1, e.2 + 1) :: es)
    else
      let p := increfAux es s
      (p.1 + 1, e :: p.2)

/-- Modelled from the spec: "incref(text) -> handle: registers a use of text;
returns a pool-stable handle; deduplicates equal text across callers". -/
def StringPool.incref (pool : StringPool) (s : String) : StringRef × StringPool :=
  let p := increfAux pool.entries s
  (p.1, ⟨p.2⟩)

/-- Modelled from the spec: "get(handle) -> &text: returns the interned
text". -/
def StringPool.get (pool : StringPool) (r : StringRef) : String :=
  (pool.entries.getD r ("", 0)).1

/-- Modelled from the spec: decrement the reference count of the entry at the
given handle. -/
def decrefAux : List (String × Nat) → Nat → List (String × Nat)
  | [], _ => []
  | e :: es, 0 => (e.1, e.2 - 1) :: es
  | e :: es, n + 1 => e :: decrefAux es n

/-- Modelled from the spec: "decref(handle): releases one use; when a handle's
count reaches zero its slot becomes free". -/
def StringPool.decref (pool : StringPool) (r : StringRef) : StringPool :=
  ⟨decrefAux pool.entries r⟩

/-- An indirect value from one cell in a database table row (value.rs, enum
ValueRef); the string variant holds a pool handle. -/
inductive ValueRef where
  | Null : ValueRef
  | Int : ℤ → ValueRef
  | Str : StringRef → ValueRef
  deriving DecidableEq

/-- Interns the given value into the string pool (if it is a string) and
returns a corresponding ValueRef (value.rs, ValueRef::create); the mutated
pool is threaded explicitly. -/
def ValueRef.create (value : Value) (string_pool : StringPool) :
    ValueRef × StringPool :=
  match value with
  | .Null => (ValueRef.Null, string_pool)
  | .Int number => (ValueRef.Int number, string_pool)
  | .Str string =>
    let p := string_pool.incref string
    (ValueRef.Str p.1, p.2)

/-- Removes the reference from the string pool, if it is a string reference
(value.rs, ValueRef::remove). -/
def ValueRef.remove (self : ValueRef) (string_pool : StringPool) : StringPool :=
  match self with
  | .Null | .Int _ => string_pool
  | .Str string_ref => string_pool.decref string_ref

/-- Dereferences the ValueRef into a Value (value.rs, ValueRef::to_value).
The Rust method takes the pool by shared reference; in state-passing style it
returns the pool it was given. -/
def ValueRef.to_value (self : ValueRef) (string_pool : StringPool) :
    Value × StringPool :=
  match self with
  | .Null => (Value.Null, string_pool)
  | .Int number => (Value.Int number, string_pool)
  | .Str string_ref => (Value.Str (string_pool.get string_ref), string_pool)

/-- Calls to_value k times in sequence, threading the pool through the calls
and collecting the returned values. -/
def toValueIterate (self : ValueRef) (string_pool : StringPool) :
    Nat → List Value × StringPool
  | 0 => ([], string_pool)
  | k + 1 =>
    let p := self.to_value string_pool
    let q := toValueIterate self p.2 k
    (p.1 :: q.1, q.2)

/-- Modelled from the spec: the ColumnType codec contract of spec section 4.2
(the concrete column types, src/internal/coltype.rs, are not part of the
corpus).  width reports the on-disk byte count given the long-string-refs
flag; read_value consumes bytes from the front of the stream, returning the
cell and the rest (none models an I/O failure on truncated input); write_value
emits the cell's bytes. -/
structure ColType where
  width : Bool → Nat
  read_value : List Nat → Bool → Option (ValueRef × List Nat)
  write_value : ValueRef → Bool → List Nat

/-- Modelled from the spec: "Column — immutable schema entry: name, column
type, primary-key flag" (src/internal/column.rs is not part of the corpus). -/
structure Column where
  name : String
  coltype : ColType
  is_primary_key : Bool

/-- A database table (table.rs, struct Table): name, column schema, and the
long-string-refs width flag. -/
structure Table where
  name : String
  columns : List Column
  long_string_refs : Bool

/-- The row stride computed inside Table::read_rows: the sum over columns of
coltype.width(long_string_refs). -/
def Table.row_size (t : Table) : Nat :=
  (t.columns.map (fun col => col.coltype.width t.long_string_refs)).sum

/-- The column-type contract of spec section 4.2, for one column type at one
ref-width flag: write_value emits exactly width bytes, and read_value parses
back exactly the cell that write_value emitted, consuming exactly its bytes. -/
def CellCodecOk (c : ColType) (lsr : Bool) : Prop :=
  (∀ v, (c.write_value v lsr).length = c.width lsr) ∧
  (∀ v rest, c.read_value (c.write_value v lsr ++ rest) lsr = some (v, rest))

/-- The inner loop of Table::read_rows for one column: read n cells in row
order from the stream, propagating failure. -/
def readCells (c : ColType) (lsr : Bool) : Nat → List Nat →
    Option (List ValueRef × List Nat)
  | 0, s => some ([], s)
  | n + 1, s =>
    match c.read_value s lsr with
    | none => none
    | some (v, s') =>
      match readCells c lsr n s' with
      | none => none
      | some (vs, s'') => some (v :: vs, s'')

/-- The outer loop of Table::read_rows: for each column in schema order, read
one cell per row and push it onto that row's buffer. -/
def readColumns (lsr : Bool) (n : Nat) : List Column → List (List ValueRef) →
    List Nat → Option (List (List ValueRef) × List Nat)
  | [], rows, s => some (rows, s)
  | col :: cols, rows, s =>
    match readCells col.coltype lsr n s with
    | none => none
    | some (vs, s') =>
      readColumns lsr n cols (List.zipWith (fun row v => row ++ [v]) rows vs) s'

/-- Table::read_rows (table.rs): measure the stream, compute the row stride
and the row count (0 for a zero-width schema, else floor division), allocate
that many empty row buffers, then fill them column by column. -/
def Table.read_rows (t : Table) (data : List Nat) :
    Option (List (List ValueRef)) :=
  let data_length := data.length
  let num_rows := if 0 < t.row_size then data_length / t.row_size else 0
  (readColumns t.long_string_refs num_rows t.columns
      (List.replicate num_rows []) data).map (fun p => p.1)

/-- The inner loop of Table::write_rows for one column: for each row in row
order, look up the cell at the column's index (none models the fatal
out-of-bounds abort of row[index]) and emit its bytes. -/
def writeColumn (c : ColType) (lsr : Bool) (index : Nat) :
    List (List ValueRef) → Option (List Nat)
  | [] => some []
  | row :: rest =>
    match row[index]? with
    | none => none
    | some v =>
      match writeColumn c lsr index rest with
      | none => none
      | some bs => some (c.write_value v lsr ++ bs)

/-- The outer loop of Table::write_rows: for each column in schema order (with
its index), write every row's cell for that column. -/
def writeColumns (lsr : Bool) : List Column → Nat → List (List ValueRef) →
    Option (List Nat)
  | [], _, _ => some []
  | col :: cols, index, rows =>
    match writeColumn col.coltype lsr index rows with
    | none => none
    | some bs =>
      match writeColumns lsr cols (index + 1) rows with
      | none => none
      | some bs' => some (bs ++ bs')

/-- Table::write_rows (table.rs): outer loop over columns in schema order,
inner loop over the given rows, writing each cell via write_value. -/
def Table.write_rows (t : Table) (rows : List (List ValueRef)) :
    Option (List Nat) :=
  writeColumns t.long_string_refs t.columns 0 rows

/-- Spec-side layout (spec sections 4.3 and 6): for each column in schema
order, a contiguous block holding that column's cell bytes for every row in
row order. -/
def columnMajorBytes (lsr : Bool) : List Column → Nat → List (List ValueRef) →
    List Nat
  | [], _, _ => []
  | col :: cols, index, rows =>
    (rows.map
        (fun row => col.coltype.write_value (row.getD index ValueRef.Null) lsr)).flatten
      ++ columnMajorBytes lsr cols (index + 1) rows

/-- Spec-side decode, first stage: read each column's n cells sequentially
from the stream, one contiguous block per column. -/
def readColumnCells (lsr : Bool) (n : Nat) : List Column → List Nat →
    Option (List (List ValueRef) × List Nat)
  | [], s => some ([], s)
  | col :: cols, s =>
    match readCells col.coltype lsr n s with
    | none => none
    | some (vs, s') =>
      match readColumnCells lsr n cols s' with
      | none => none
      | some (ls, s'') => some (vs :: ls, s'')

/-- Spec-side decode (spec section 4.3, written from the spec's words): read
the per-column blocks sequentially, then row j is the j-th cell of every
column — the transpose of the column-major blocks. -/
def Table.read_rows_spec (t : Table) (data : List Nat) :
    Option (List (List ValueRef)) :=
  let num_rows := if 0 < t.row_size then data.length / t.row_size else 0
  (readColumnCells t.long_string_refs num_rows t.columns data).map
    (fun p => (List.range num_rows).map
      (fun j => p.1.map (fun col => col.getD j ValueRef.Null)))

/-- The loop of Table::index_for_column_name: the index of the first column
whose name matches, none modelling the fatal "no such column" abort. -/
def indexForAux : List Column → String → Option Nat
  | [], _ => none
  | col :: cols, column_name =>
    if col.name = column_name then some 0
    else (indexForAux cols column_name).map (fun i => i + 1)

/-- Table::index_for_column_name (table.rs). -/
def Table.index_for_column_name (t : Table) (column_name : String) :
    Option Nat :=
  indexForAux t.columns column_name

/-- One row from a database table (table.rs, struct Row): a reference to the
owning table plus the materialized values. -/
structure Row where
  table : Table
  values : List Value

/-- Row::len (table.rs): the number of columns in the owning table. -/
def Row.len (self : Row) : Nat := self.table.columns.length

/-- Index of Row by position (table.rs, Index of usize for Row): none models
the fatal out-of-bounds abort of the vector indexing. -/
def Row.index (self : Row) (i : Nat) : Option Value := self.values[i]?

/-- Index of Row by column name (table.rs, Index of str for Row): resolve the
name through the owning table's schema, then index by position. -/
def Row.index_by_name (self : Row) (column_name : String) : Option Value :=
  (self.table.index_for_column_name column_name).bind (fun i => self.values[i]?)

/-- An iterator over the rows in a database table (table.rs, struct Rows). -/
structure Rows where
  string_pool : StringPool
  table : Table
  rows : List (List ValueRef)
  next_row_index : Nat

/-- Rows::new (table.rs): the cursor starts at 0. -/
def Rows.new (string_pool : StringPool) (table : Table)
    (rows : List (List ValueRef)) : Rows :=
  ⟨string_pool, table, rows, 0⟩

/-- Iterator::next for Rows (table.rs): if the cursor is in bounds,
dereference that row through the pool into a Row of owned Values and advance
the cursor; otherwise return none and leave the state unchanged. -/
def Rows.next (self : Rows) : Option Row × Rows :=
  if self.next_row_index < self.rows.length then
    let values := (self.rows.getD self.next_row_index []).map
      (fun value_ref => (value_ref.to_value self.string_pool).1)
    (some ⟨self.table, values⟩,
      { self with next_row_index := self.next_row_index + 1 })
  else (none, self)

/-- Iterator::size_hint for Rows (table.rs): lower and upper bound are both
the number of unread rows. -/
def Rows.size_hint (self : Rows) : Nat × Option Nat :=
  (self.rows.length - self.next_row_index,
    some (self.rows.length - self.next_row_index))

/-- The state of a Rows iterator after k calls to next. -/
def Rows.advance (self : Rows) : Nat → Rows
  | 0 => self
  | k + 1 => ((self.advance k).next).2

/-- A concrete witness codec: an injective two-byte cell encoding used only to
instantiate theorems at concrete inputs.  Integers are folded onto the
naturals by the standard pairing. -/
def intPair (n : ℤ) : Nat :=
  if 0 ≤ n then 2 * n.toNat else 2 * (-n - 1).toNat + 1

/-- Inverse of intPair. -/
def natUnpair (p : Nat) : ℤ :=
  if p % 2 = 0 then ((p / 2 : Nat) : ℤ) else -((p / 2 : Nat) : ℤ) - 1

/-- Witness codec: encode one cell as a tag byte plus a payload byte. -/
def encodeCell : ValueRef → List Nat
  | .Null => [0, 0]
  | .Int n => [1, intPair n]
  | .Str h => [2, h]

/-- Witness codec: decode a tag byte plus a payload byte. -/
def decodeCell (tag payload : Nat) : Option ValueRef :=
  if tag = 0 then some ValueRef.Null
  else if tag = 1 then some (ValueRef.Int (natUnpair payload))
  else if tag = 2 then some (ValueRef.Str payload)
  else none

/-- A concrete column type satisfying the codec contract, for witnesses. -/
def demoColType : ColType where
  width := fun _ => 2
  read_value := fun s _ =>
    match s with
    | tag :: payload :: rest => (decodeCell tag payload).map (fun v => (v, rest))
    | _ => none
  write_value := fun v _ => encodeCell v

/-- A concrete column for witnesses. -/
def demoColumn : Column := ⟨"Id", demoColType, true⟩

/-- A concrete one-column table for witnesses and counterexamples. -/
def demoTable : Table := ⟨"Demo", [demoColumn], false⟩

/-- A table with no columns at all: the degenerate zero-width schema. -/
def emptyTable : Table := ⟨"Empty", [], false⟩

/-- Concrete rows for witnesses. -/
def demoRows : List (List ValueRef) := [[ValueRef.Int 5], [ValueRef.Null]]

/-- A concrete row for witnesses. -/
def demoRow : Row := ⟨demoTable, [Value.Int 7]⟩

/-! Helper lemmas. -/

/-- Interning a string and then looking its handle up in the resulting entry
list returns that string. -/
theorem get_increfAux (es : List (String × Nat)) (s : String) :
    StringPool.get ⟨(increfAux es s).2⟩ (increfAux es s).1 = s := by
  induction es with
  | nil => rfl
  | cons e es ih =>
    rw [increfAux]
    split
    case isTrue h => simpa [StringPool.get] using h.1
    case isFalse h => simpa [StringPool.get] using ih

/-- to_value threads the pool through unchanged. -/
theorem to_value_snd (r : ValueRef) (pool : StringPool) :
    (r.to_value pool).2 = pool := by
  cases r <;> rfl

/-! Claim theorems. -/

/-- C4: for every non-null Value v and every pool state, converting v to a
ValueRef through the pool with ValueRef::create and dereferencing it back with
ValueRef::to_value reproduces the original value. -/
theorem create_to_value_roundtrip (v : Value) (pool : StringPool)
    (hv : v ≠ Value.Null) :
    ((ValueRef.create v pool).1.to_value (ValueRef.create v pool).2).1 = v := by
  cases v with
  | Null => exact absurd rfl hv
  | Int n => rfl
  | Str s =>
    simpa [ValueRef.create, ValueRef.to_value, StringPool.incref] using
      get_increfAux pool.entries s

/-- Witness for C4 at the value Str "a" and the empty pool. -/
theorem create_to_value_roundtrip_witness :
    ((ValueRef.create (Value.Str "a") ⟨[]⟩).1.to_value
        (ValueRef.create (Value.Str "a") ⟨[]⟩).2).1 = Value.Str "a" :=
  create_to_value_roundtrip (Value.Str "a") ⟨[]⟩ (by decide)

/-- C8: ValueRef::to_value is non-mutating: it returns the pool unchanged, any
number of sequential calls yields the same value each time and leaves the pool
unchanged, and for Str handles it returns an owned copy of the pool's text. -/
theorem to_value_non_mutating (r : ValueRef) (pool : StringPool) :
    (r.to_value pool).2 = pool ∧
    (∀ k, toValueIterate r pool k = (List.replicate k (r.to_value pool).1, pool)) ∧
    (∀ h : StringRef, ((ValueRef.Str h).to_value pool).1 = Value.Str (pool.get h)) := by
  refine ⟨to_value_snd r pool, ?_, fun _ => rfl⟩
  intro k
  induction k with
  | zero => rfl
  | succ k ih =>
    rw [toValueIterate, to_value_snd, ih, List.replicate_succ]

/-- C9: Value::to_bool is total and returns false exactly for Null, Int 0 and
the empty string; Value::from_bool maps true to Int 1 and false to Int 0. -/
theorem to_bool_from_bool_total (v : Value) :
    (v.to_bool = false ↔ (v = Value.Null ∨ v = Value.Int 0 ∨ v = Value.Str "")) ∧
    Value.from_bool true = Value.Int 1 ∧ Value.from_bool false = Value.Int 0 := by
  refine ⟨?_, rfl, rfl⟩
  cases v with
  | Null => simp [Value.to_bool]
  | Int n => simp [Value.to_bool]
  | Str s => simp [Value.to_bool, String.isEmpty_iff]

/-- C10: for every Value exactly one of is_null, is_int, is_str holds, and
as_int and as_str agree with the classifiers: as_int returns some n exactly on
Int n, as_str returns some s exactly on Str s. -/
theorem value_classifiers_consistent (v : Value) :
    ((v.is_null = true ∧ v.is_int = false ∧ v.is_str = false) ∨
      (v.is_null = false ∧ v.is_int = true ∧ v.is_str = false) ∨
      (v.is_null = false ∧ v.is_int = false ∧ v.is_str = true)) ∧
    (∀ n, v.as_int = some n ↔ v = Value.Int n) ∧
    (∀ s, v.as_str = some s ↔ v = Value.Str s) := by
  cases v <;>
    simp [Value.is_null, Value.is_int, Value.is_str, Value.as_int, Value.as_str]

/-- After k calls to next, a freshly built Rows iterator still holds the same
decoded rows and its cursor sits at min k (number of rows). -/
theorem rows_advance_fields (pool : StringPool) (t : Table)
    (rs : List (List ValueRef)) (k : Nat) :
    ((Rows.new pool t rs).advance k).rows = rs ∧
    ((Rows.new pool t rs).advance k).next_row_index = min k rs.length := by
  induction k with
  | zero => exact ⟨rfl, by simp [Rows.advance, Rows.new]⟩
  | succ k ih =>
    obtain ⟨hrows, hidx⟩ := ih
    rw [Rows.advance]
    by_cases hk : k < rs.length
    · have h1 : min k rs.length = k := Nat.min_eq_left hk.le
      have h2 : min (k + 1) rs.length = k + 1 := Nat.min_eq_left hk
      rw [h1] at hidx
      simp [Rows.next, hidx, hrows, hk, h2]
    · have h1 : min k rs.length = rs.length :=
        Nat.min_eq_right (Nat.le_of_not_lt hk)
      have h2 : min (k + 1) rs.length = rs.length :=
        Nat.min_eq_right (by omega)
      rw [h1] at hidx
      simp [Rows.next, hidx, hrows, h2]

/-- C6: for a Rows iterator built over a list of decoded rows, after k calls
to next the next call returns some exactly when k is still below the original
row count, and size_hint reports the remaining count, lower and upper bound
both equal to the original count minus the rows already consumed. -/
theorem rows_next_size_hint (pool : StringPool) (t : Table)
    (rs : List (List ValueRef)) (k : Nat) :
    ((((Rows.new pool t rs).advance k).next).1.isSome = true ↔ k < rs.length) ∧
    ((Rows.new pool t rs).advance k).size_hint
      = (rs.length - min k rs.length, some (rs.length - min k rs.length)) := by
  obtain ⟨hrows, hidx⟩ := rows_advance_fields pool t rs k
  constructor
  · by_cases hk : k < rs.length
    · have hmin : min k rs.length = k := Nat.min_eq_left hk.le
      rw [hmin] at hidx
      simp [Rows.next, hidx, hrows, hk]
    · have hmin : min k rs.length = rs.length :=
        Nat.min_eq_right (Nat.le_of_not_lt hk)
      rw [hmin] at hidx
      simp [Rows.next, hidx, hrows, hk]
  · simp [Rows.size_hint, hidx, hrows]

/-- The first-match loop of Table::index_for_column_name: when it returns an
index, the column there bears the requested name and no earlier column does. -/
theorem indexForAux_some (cols : List Column) (column_name : String) (i : Nat)
    (h : indexForAux cols column_name = some i) :
    (cols[i]?).map Column.name = some column_name ∧
    ∀ j, j < i → (cols[j]?).map Column.name ≠ some column_name := by
  induction cols generalizing i with
  | nil => simp [indexForAux] at h
  | cons c cs ih =>
    rw [indexForAux] at h
    split at h
    case isTrue hname =>
      obtain rfl : (0 : Nat) = i := Option.some.inj h
      exact ⟨by simpa using hname, fun j hj => absurd hj (Nat.not_lt_zero j)⟩
    case isFalse hname =>
      obtain ⟨i', hi', rfl⟩ := Option.map_eq_some'.mp h
      obtain ⟨h1, h2⟩ := ih i' hi'
      refine ⟨by simpa using h1, ?_⟩
      intro j hj
      match j with
      | 0 => simpa using hname
      | j' + 1 =>
        have := h2 j' (Nat.lt_of_succ_lt_succ hj)
        simpa using this

/-- C7: indexing a Row by a column name present in the schema returns the same
value as indexing by the name's resolved index, which is the first match in
schema order; a name matching no column is fatal (none), as is a position at
or beyond the end of the values. -/
theorem row_index_name_pos (row : Row) (column_name : String) :
    (∀ i, row.table.index_for_column_name column_name = some i →
      Row.index_by_name row column_name = Row.index row i ∧
      (row.table.columns[i]?).map Column.name = some column_name ∧
      ∀ j, j < i → (row.table.columns[j]?).map Column.name ≠ some column_name) ∧
    (row.table.index_for_column_name column_name = none →
      Row.index_by_name row column_name = none) ∧
    (∀ i, row.values.length ≤ i → Row.index row i = none) := by
  refine ⟨?_, ?_, ?_⟩
  · intro i hi
    have haux : indexForAux row.table.columns column_name = some i := hi
    obtain ⟨h1, h2⟩ := indexForAux_some row.table.columns column_name i haux
    exact ⟨by simp [Row.index_by_name, Row.index, hi], h1, h2⟩
  · intro h
    simp [Row.index_by_name, h]
  · intro i hi
    simp [Row.index, List.getElem?_eq_none hi]

/-- Witness for C7 at a concrete one-column table: looking up the column named
Id returns the same value as position 0, where the name resolves. -/
theorem row_index_name_pos_witness :
    Row.index_by_name demoRow "Id" = Row.index demoRow 0 :=
  ((row_index_name_pos demoRow "Id").1 0 (by decide)).1

/-- Mapping getD over the full range of indices reproduces the list. -/
theorem range_map_getD {α : Type*} (l : List α) (d : α) :
    (List.range l.length).map (fun j => l.getD j d) = l := by
  induction l with
  | nil => rfl
  | cons a l ih =>
    rw [List.length_cons, List.range_succ_eq_map, List.map_cons, List.map_map]
    refine congrArg (List.cons a) ?_
    have hcomp : ((fun j => (a :: l).getD j d) ∘ Nat.succ) = fun j => l.getD j d :=
      funext fun j => List.getD_cons_succ
    rw [hcomp, ih]

/-- getD on a replicate of empty lists is always the empty list. -/
theorem getD_replicate_nil {α : Type*} (n j : Nat) :
    (List.replicate n ([] : List α)).getD j [] = [] := by
  induction n generalizing j with
  | zero => cases j <;> rfl
  | succ n ih => cases j with
    | zero => rfl
    | succ j =>
      rw [List.replicate_succ, List.getD_cons_succ]
      exact ih j

/-- Dropping i elements of a list with more than i elements peels off the
element at i. -/
theorem drop_eq_getD_cons {α : Type*} (d : α) :
    ∀ (l : List α) (i : Nat), i < l.length →
      l.drop i = l.getD i d :: l.drop (i + 1) := by
  intro l
  induction l with
  | nil => intro i h; simp at h
  | cons a l ih =>
    intro i h
    cases i with
    | zero => simp
    | succ i =>
      simp only [List.drop_succ_cons, List.getD_cons_succ]
      exact ih i (by simpa using h)

/-- getD distributes over the snoc-one-cell zipWith used by read_rows. -/
theorem getD_zipWith_snoc {α : Type*} (d : α) :
    ∀ (acc : List (List α)) (vs : List α) (j : Nat), j < acc.length → j < vs.length →
      (List.zipWith (fun row v => row ++ [v]) acc vs).getD j []
        = acc.getD j [] ++ [vs.getD j d] := by
  intro acc
  induction acc with
  | nil => intro vs j h _; simp at h
  | cons a acc ih =>
    intro vs j h1 h2
    cases vs with
    | nil => simp at h2
    | cons v vs =>
      cases j with
      | zero => simp
      | succ j =>
        simp only [List.zipWith_cons_cons, List.getD_cons_succ]
        exact ih vs j (by simpa using h1) (by simpa using h2)

/-- Appending each row's cell at an index and then the rest of the row equals
appending the whole row tail from that index. -/
theorem zipWith_snoc_drop (index : Nat) :
    ∀ (acc rows : List (List ValueRef)), (∀ row ∈ rows, index < row.length) →
      List.zipWith (fun a row => a ++ List.drop (index + 1) row)
        (List.zipWith (fun a v => a ++ [v]) acc
          (rows.map (fun row => row.getD index ValueRef.Null)))
        rows
      = List.zipWith (fun a row => a ++ List.drop index row) acc rows := by
  intro acc
  induction acc with
  | nil => intro rows _; simp
  | cons a acc ih =>
    intro rows h
    cases rows with
    | nil => simp
    | cons r rows =>
      have hr : index < r.length := h r (List.mem_cons_self r rows)
      simp only [List.map_cons, List.zipWith_cons_cons]
      rw [ih rows (fun row hrow => h row (List.mem_cons_of_mem r hrow))]
      rw [List.append_assoc, List.singleton_append]
      rw [← drop_eq_getD_cons ValueRef.Null r index hr]

/-- Zipping empty accumulators with full rows by append reproduces the rows. -/
theorem zipWith_replicate_nil_append {α : Type*} :
    ∀ (rows : List (List α)),
      List.zipWith (fun a row => a ++ row) (List.replicate rows.length []) rows
        = rows := by
  intro rows
  induction rows with
  | nil => rfl
  | cons r rows ih => simpa [List.replicate_succ] using ih

/-- When every row is already exhausted at the index, appending the dropped
tails is the identity on the accumulators. -/
theorem zipWith_append_drop_exhausted (index : Nat) :
    ∀ (acc rows : List (List ValueRef)), acc.length = rows.length →
      (∀ row ∈ rows, row.length ≤ index) →
      List.zipWith (fun a row => a ++ List.drop index row) acc rows = acc := by
  intro acc
  induction acc with
  | nil => intro rows _ _; simp
  | cons a acc ih =>
    intro rows hlen h
    cases rows with
    | nil => simp at hlen
    | cons r rows =>
      have hr : r.length ≤ index := h r (List.mem_cons_self r rows)
      simp only [List.zipWith_cons_cons]
      rw [List.drop_eq_nil_of_le hr, List.append_nil,
        ih rows (by simpa using hlen) (fun row hrow => h row (List.mem_cons_of_mem r hrow))]

/-- readCells returns exactly as many cells as requested. -/
theorem readCells_length (c : ColType) (lsr : Bool) :
    ∀ (n : Nat) (s : List Nat) (vs : List ValueRef) (s' : List Nat),
      readCells c lsr n s = some (vs, s') → vs.length = n := by
  intro n
  induction n with
  | zero =>
    intro s vs s' h
    rw [readCells] at h
    obtain ⟨h1, _⟩ := Prod.mk.injEq .. ▸ Option.some.inj h
    rw [← h1]
    rfl
  | succ n ih =>
    intro s vs s' h
    rw [readCells] at h
    cases hr : c.read_value s lsr with
    | none =>
      simp only [hr] at h
      exact Option.noConfusion h
    | some p =>
      obtain ⟨v0, s0⟩ := p
      simp only [hr] at h
      cases hrc : readCells c lsr n s0 with
      | none =>
        simp only [hrc] at h
        exact Option.noConfusion h
      | some q =>
        obtain ⟨vs0, s1⟩ := q
        simp only [hrc, Option.some.injEq, Prod.mk.injEq] at h
        rw [← h.1, List.length_cons, ih s0 vs0 s1 hrc]

/-- Under the cell codec contract, reading back a flattened block of written
cells returns exactly those cells and leaves the rest of the stream. -/
theorem readCells_of_writes (c : ColType) (lsr : Bool) (hc : CellCodecOk c lsr) :
    ∀ (vs : List ValueRef) (rest : List Nat),
      readCells c lsr vs.length
          ((vs.map (fun v => c.write_value v lsr)).flatten ++ rest)
        = some (vs, rest) := by
  intro vs
  induction vs with
  | nil => intro rest; rfl
  | cons v vs ih =>
    intro rest
    simp only [List.map_cons, List.flatten_cons, List.length_cons,
      List.append_assoc]
    rw [readCells]
    simp only [hc.2, ih]

/-- When every row extends past the column index, the inner write loop
succeeds and emits the flattened block of that column's cells. -/
theorem writeColumn_eq (c : ColType) (lsr : Bool) (index : Nat) :
    ∀ rows : List (List ValueRef), (∀ row ∈ rows, index < row.length) →
      writeColumn c lsr index rows
        = some ((rows.map
            (fun row => c.write_value (row.getD index ValueRef.Null) lsr)).flatten) := by
  intro rows
  induction rows with
  | nil => intro _; rfl
  | cons row rest ih =>
    intro h
    have hrow : index < row.length := h row (List.mem_cons_self row rest)
    rw [writeColumn, List.getElem?_eq_getElem hrow,
      ih (fun r hr => h r (List.mem_cons_of_mem row hr)),
      List.map_cons, List.flatten_cons, List.getD_eq_getElem row ValueRef.Null hrow]

/-- When every row is at least as long as the remaining schema demands, the
outer write loop succeeds and emits the column-major layout. -/
theorem writeColumns_eq (lsr : Bool) :
    ∀ (cols : List Column) (index : Nat) (rows : List (List ValueRef)),
      (∀ row ∈ rows, index + cols.length ≤ row.length) →
      writeColumns lsr cols index rows = some (columnMajorBytes lsr cols index rows) := by
  intro cols
  induction cols with
  | nil => intro index rows _; rfl
  | cons col cols ih =>
    intro index rows h
    have h1 : ∀ row ∈ rows, index < row.length := by
      intro r hr
      have := h r hr
      rw [List.length_cons] at this
      omega
    have h2 : ∀ row ∈ rows, (index + 1) + cols.length ≤ row.length := by
      intro r hr
      have := h r hr
      rw [List.length_cons] at this
      omega
    rw [writeColumns, writeColumn_eq col.coltype lsr index rows h1,
      ih (index + 1) rows h2, columnMajorBytes]

/-- Under the width law, the column-major layout of k rows occupies exactly
k times the sum of the column widths. -/
theorem columnMajorBytes_length (lsr : Bool) :
    ∀ (cols : List Column) (index : Nat) (rows : List (List ValueRef)),
      (∀ col ∈ cols, ∀ v,
        (col.coltype.write_value v lsr).length = col.coltype.width lsr) →
      (columnMajorBytes lsr cols index rows).length
        = rows.length * (cols.map (fun col => col.coltype.width lsr)).sum := by
  intro cols
  induction cols with
  | nil => intro index rows _; simp [columnMajorBytes]
  | cons col cols ih =>
    intro index rows h
    have hcol := h col (List.mem_cons_self col cols)
    have hcols := fun c hc => h c (List.mem_cons_of_mem col hc)
    rw [columnMajorBytes, List.length_append, ih (index + 1) rows hcols,
      List.length_flatten, List.map_map]
    have hconst : (List.length ∘ fun (row : List ValueRef) =>
        col.coltype.write_value (row.getD index ValueRef.Null) lsr)
        = fun _ => col.coltype.width lsr :=
      funext fun (row : List ValueRef) => hcol (row.getD index ValueRef.Null)
    rw [hconst, List.map_const', List.sum_replicate, smul_eq_mul,
      List.map_cons, List.sum_cons, Nat.mul_add]

/-- The cell codec contract forces a positive width: a zero-width codec could
not decode two distinct cells from the same bytes. -/
theorem cellCodecOk_width_pos (c : ColType) (lsr : Bool) (hc : CellCodecOk c lsr) :
    0 < c.width lsr := by
  by_contra h
  have hw : c.width lsr = 0 := Nat.eq_zero_of_not_pos h
  have h0 : ∀ v, c.write_value v lsr = [] := fun v =>
    List.length_eq_zero.mp (by rw [hc.1 v, hw])
  have h1 := hc.2 ValueRef.Null []
  have h2 := hc.2 (ValueRef.Int 0) []
  rw [h0, List.nil_append] at h1 h2
  rw [h1] at h2
  simp at h2

/-- A nonempty schema whose columns all satisfy the codec contract has a
positive row stride. -/
theorem row_size_pos (t : Table) (hcols : t.columns ≠ [])
    (hcodec : ∀ col ∈ t.columns, CellCodecOk col.coltype t.long_string_refs) :
    0 < t.row_size := by
  obtain ⟨c, cs, hc⟩ := List.exists_cons_of_ne_nil hcols
  have hmem : c ∈ t.columns := by rw [hc]; exact List.mem_cons_self c cs
  have hpos : 0 < c.coltype.width t.long_string_refs :=
    cellCodecOk_width_pos c.coltype t.long_string_refs (hcodec c hmem)
  rw [Table.row_size, hc, List.map_cons, List.sum_cons]
  omega

/-- The accumulator-based column loop of read_rows equals reading the
per-column cell blocks sequentially and distributing cell j of each block to
row j. -/
theorem readColumns_eq_cells (lsr : Bool) (n : Nat) :
    ∀ (cols : List Column) (acc : List (List ValueRef)) (s : List Nat),
      acc.length = n →
      readColumns lsr n cols acc s
        = (readColumnCells lsr n cols s).map
            (fun p => ((List.range n).map
              (fun j => acc.getD j [] ++ p.1.map (fun col => col.getD j ValueRef.Null)),
              p.2)) := by
  intro cols
  induction cols with
  | nil =>
    intro acc s hacc
    rw [readColumns, readColumnCells, Option.map_some']
    subst hacc
    simp only [List.map_nil, List.append_nil, range_map_getD]
  | cons col cols ih =>
    intro acc s hacc
    rw [readColumns, readColumnCells]
    cases hr : readCells col.coltype lsr n s with
    | none => simp
    | some p =>
      obtain ⟨vs, s'⟩ := p
      have hvs : vs.length = n := readCells_length col.coltype lsr n s vs s' hr
      simp only
      rw [ih (List.zipWith (fun row v => row ++ [v]) acc vs) s'
        (by rw [List.length_zipWith, hacc, hvs]; exact Nat.min_self n)]
      cases hrc : readColumnCells lsr n cols s' with
      | none => simp
      | some q =>
        obtain ⟨ls, s''⟩ := q
        simp only [Option.map_some', Option.some.injEq, Prod.mk.injEq, and_true]
        apply List.map_congr_left
        intro j hj
        have hjn : j < n := List.mem_range.mp hj
        rw [getD_zipWith_snoc ValueRef.Null acc vs j (hacc ▸ hjn) (hvs ▸ hjn),
          List.map_cons, List.append_assoc, List.singleton_append]

/-- Table::read_rows equals the spec-side column-blocks-then-transpose
decode. -/
theorem read_rows_eq_spec_aux (t : Table) (data : List Nat) :
    t.read_rows data = t.read_rows_spec data := by
  rw [Table.read_rows, Table.read_rows_spec]
  rw [readColumns_eq_cells t.long_string_refs _ t.columns _ data
    (List.length_replicate _ _)]
  rw [Option.map_map]
  cases readColumnCells t.long_string_refs
      (if 0 < t.row_size then data.length / t.row_size else 0) t.columns data with
  | none => rfl
  | some p =>
    simp only [Option.map_some', Function.comp_apply, Option.some.injEq]
    apply List.map_congr_left
    intro j _
    rw [getD_replicate_nil, List.nil_append]

/-- With a row count of zero, the column loop of read_rows reads nothing and
succeeds, leaving the stream untouched. -/
theorem readColumns_zero (lsr : Bool) :
    ∀ (cols : List Column) (s : List Nat),
      readColumns lsr 0 cols [] s = some ([], s) := by
  intro cols
  induction cols with
  | nil => intro s; rfl
  | cons col cols ih =>
    intro s
    rw [readColumns]
    exact ih s

/-- The column loop of read_rows preserves the number of row buffers. -/
theorem readColumns_length (lsr : Bool) (n : Nat) :
    ∀ (cols : List Column) (acc : List (List ValueRef)) (s : List Nat)
      (rows' : List (List ValueRef)) (s' : List Nat),
      acc.length = n → readColumns lsr n cols acc s = some (rows', s') →
      rows'.length = n := by
  intro cols
  induction cols with
  | nil =>
    intro acc s rows' s' hacc h
    rw [readColumns] at h
    obtain ⟨h1, _⟩ := Prod.mk.injEq .. ▸ Option.some.inj h
    rw [← h1]
    exact hacc
  | cons col cols ih =>
    intro acc s rows' s' hacc h
    rw [readColumns] at h
    cases hr : readCells col.coltype lsr n s with
    | none =>
      simp only [hr] at h
      exact Option.noConfusion h
    | some p =>
      obtain ⟨vs, s0⟩ := p
      simp only [hr] at h
      exact ih _ s0 rows' s'
        (by rw [List.length_zipWith, hacc,
          readCells_length col.coltype lsr n s vs s0 hr]; exact Nat.min_self n) h

/-- Reading back the column-major layout of a row set, column by column,
appends to each accumulator exactly that row's cells from the index onward. -/
theorem readColumns_writes (lsr : Bool) :
    ∀ (cols : List Column) (index : Nat) (rows acc : List (List ValueRef))
      (rest : List Nat),
      (∀ col ∈ cols, CellCodecOk col.coltype lsr) →
      (∀ row ∈ rows, row.length = index + cols.length) →
      acc.length = rows.length →
      readColumns lsr rows.length cols acc
          (columnMajorBytes lsr cols index rows ++ rest)
        = some (List.zipWith (fun a row => a ++ List.drop index row) acc rows,
            rest) := by
  intro cols
  induction cols with
  | nil =>
    intro index rows acc rest _ hlen hacc
    rw [columnMajorBytes, List.nil_append, readColumns,
      zipWith_append_drop_exhausted index acc rows hacc
        (fun row hrow => Nat.le_of_eq ((hlen row hrow).trans (Nat.add_zero index)))]
  | cons col cols ih =>
    intro index rows acc rest hc hlen hacc
    have hcol : CellCodecOk col.coltype lsr := hc col (List.mem_cons_self col cols)
    have hcells := readCells_of_writes col.coltype lsr hcol
      (rows.map (fun row => row.getD index ValueRef.Null))
      (columnMajorBytes lsr cols (index + 1) rows ++ rest)
    rw [List.length_map, List.map_map] at hcells
    rw [columnMajorBytes, List.append_assoc, readColumns]
    rw [show ((fun v => col.coltype.write_value v lsr) ∘
        fun row => row.getD index ValueRef.Null)
        = fun (row : List ValueRef) =>
          col.coltype.write_value (row.getD index ValueRef.Null) lsr from rfl]
      at hcells
    simp only [hcells]
    rw [ih (index + 1) rows _ rest
      (fun c hcc => hc c (List.mem_cons_of_mem col hcc))
      (fun row hrow => by rw [hlen row hrow, List.length_cons]; omega)
      (by rw [List.length_zipWith, hacc, List.length_map]; exact Nat.min_self _)]
    rw [zipWith_snoc_drop index acc rows
      (fun row hrow => by rw [hlen row hrow, List.length_cons]; omega)]

/-- The integer pairing used by the witness codec is invertible. -/
theorem natUnpair_intPair (n : ℤ) : natUnpair (intPair n) = n := by
  by_cases h : 0 ≤ n
  · rw [intPair, if_pos h, natUnpair, if_pos (by omega)]
    have hdiv : 2 * n.toNat / 2 = n.toNat := by omega
    rw [hdiv, Int.toNat_of_nonneg h]
  · rw [intPair, if_neg h, natUnpair, if_neg (by omega)]
    have hdiv : (2 * (-n - 1).toNat + 1) / 2 = (-n - 1).toNat := by omega
    rw [hdiv]
    have hm : (((-n - 1).toNat : Nat) : ℤ) = -n - 1 :=
      Int.toNat_of_nonneg (by omega)
    omega

/-- The witness codec satisfies the column-type contract. -/
theorem demo_cellCodecOk (lsr : Bool) : CellCodecOk demoColType lsr := by
  constructor
  · intro v
    cases v <;> rfl
  · intro v rest
    cases v with
    | Null => rfl
    | Int n =>
      show (decodeCell 1 (intPair n)).map (fun v => (v, rest))
          = some (ValueRef.Int n, rest)
      rw [decodeCell, if_neg (by omega), if_pos rfl, natUnpair_intPair]
      rfl
    | Str h => rfl

/-- C1: Table::read_rows and Table::write_rows traverse cells in column-major
order: write_rows emits, for each column in schema order, one contiguous
block holding that column's cell for every row in row order, and read_rows
equals reading the per-column blocks sequentially and transposing them into
rows. -/
theorem rows_traversal_column_major :
    (∀ (t : Table) (rows : List (List ValueRef)),
      (∀ row ∈ rows, t.columns.length ≤ row.length) →
      t.write_rows rows
        = some (columnMajorBytes t.long_string_refs t.columns 0 rows)) ∧
    (∀ (t : Table) (data : List Nat),
      t.read_rows data = t.read_rows_spec data) := by
  constructor
  · intro t rows h
    rw [Table.write_rows]
    exact writeColumns_eq t.long_string_refs t.columns 0 rows
      (fun r hr => by have := h r hr; omega)
  · intro t data
    exact read_rows_eq_spec_aux t data

/-- Witness for C1 at a concrete one-column table. -/
theorem rows_traversal_column_major_witness :
    demoTable.write_rows demoRows
        = some (columnMajorBytes demoTable.long_string_refs demoTable.columns
            0 demoRows) ∧
    demoTable.read_rows [1, 4] = demoTable.read_rows_spec [1, 4] :=
  ⟨rows_traversal_column_major.1 demoTable demoRows (by decide),
    rows_traversal_column_major.2 demoTable [1, 4]⟩

/-- Counterexample for C2 as stated: for the table with no columns, one row
of length num_columns (= 0) round trips to zero rows, not one.  The write
succeeds and the decoded result is the empty row list, which differs from the
original singleton row list. -/
theorem write_read_rows_roundtrip_cex :
    ([] : List ValueRef).length = emptyTable.columns.length ∧
    (emptyTable.write_rows [[]]).bind emptyTable.read_rows = some [] ∧
    some ([] : List (List ValueRef)) ≠ some [([] : List ValueRef)] := by
  refine ⟨rfl, rfl, by decide⟩

/-- C2 (amended with a nonempty schema): for every table with at least one
column whose column types satisfy the codec contract, writing any rows of
width num_columns and reading the resulting stream back yields exactly the
original rows. -/
theorem write_read_rows_roundtrip (t : Table) (rows : List (List ValueRef))
    (hcols : t.columns ≠ [])
    (hcodec : ∀ col ∈ t.columns, CellCodecOk col.coltype t.long_string_refs)
    (hlen : ∀ row ∈ rows, row.length = t.columns.length) :
    (t.write_rows rows).bind t.read_rows = some rows := by
  have hw : t.write_rows rows
      = some (columnMajorBytes t.long_string_refs t.columns 0 rows) := by
    rw [Table.write_rows]
    exact writeColumns_eq t.long_string_refs t.columns 0 rows
      (fun r hr => by have := hlen r hr; omega)
  have hpos : 0 < t.row_size := row_size_pos t hcols hcodec
  have hwidth : ∀ col ∈ t.columns, ∀ v,
      (col.coltype.write_value v t.long_string_refs).length
        = col.coltype.width t.long_string_refs :=
    fun c hc v => (hcodec c hc).1 v
  have hbytes : (columnMajorBytes t.long_string_refs t.columns 0 rows).length
      = rows.length * t.row_size := by
    rw [Table.row_size]
    exact columnMajorBytes_length t.long_string_refs t.columns 0 rows hwidth
  have hread := readColumns_writes t.long_string_refs t.columns 0 rows
    (List.replicate rows.length []) [] hcodec
    (fun row hrow => by have := hlen row hrow; omega)
    (List.length_replicate _ _)
  rw [List.append_nil] at hread
  rw [hw, Option.some_bind]
  simp only [Table.read_rows]
  rw [if_pos hpos, hbytes, Nat.mul_div_cancel rows.length hpos, hread,
    Option.map_some']
  simp only [List.drop_zero]
  rw [zipWith_replicate_nil_append rows]

/-- Witness for C2 at a concrete one-column table with two rows. -/
theorem write_read_rows_roundtrip_witness :
    (demoTable.write_rows demoRows).bind demoTable.read_rows = some demoRows :=
  write_read_rows_roundtrip demoTable demoRows
    (by exact List.cons_ne_nil demoColumn [])
    (fun col hcol => by
      have h2 : col ∈ [demoColumn] := hcol
      have h3 : col = demoColumn := by simpa using h2
      rw [h3]
      exact demo_cellCodecOk false)
    (by decide)

/-- C3: read_rows on a stream of length L yields floor(L / row_size) rows
when the row stride is positive, and on a zero-stride (degenerate) schema it
succeeds with exactly zero rows, never failing and never dividing. -/
theorem read_rows_count (t : Table) (data : List Nat) :
    (t.row_size = 0 → t.read_rows data = some []) ∧
    (∀ rows, t.read_rows data = some rows →
      rows.length = if 0 < t.row_size then data.length / t.row_size else 0) := by
  constructor
  · intro h0
    simp [Table.read_rows, h0, readColumns_zero]
  · intro rows h
    simp only [Table.read_rows] at h
    cases hres : readColumns t.long_string_refs
        (if 0 < t.row_size then data.length / t.row_size else 0) t.columns
        (List.replicate
          (if 0 < t.row_size then data.length / t.row_size else 0) []) data with
    | none =>
      rw [hres, Option.map_none'] at h
      exact Option.noConfusion h
    | some p =>
      obtain ⟨rows0, s0⟩ := p
      rw [hres, Option.map_some'] at h
      rw [← Option.some.inj h]
      exact readColumns_length t.long_string_refs _ t.columns _ data rows0 s0
        (List.length_replicate _ _) hres

/-- Witness for C3 at the zero-column table on a nonempty stream, and for the
row-count formula on the result. -/
theorem read_rows_count_witness :
    emptyTable.read_rows [7, 8, 9] = some [] ∧
    ([] : List (List ValueRef)).length
      = if 0 < emptyTable.row_size then [7, 8, 9].length / emptyTable.row_size
        else 0 :=
  ⟨(read_rows_count emptyTable [7, 8, 9]).1 rfl,
    (read_rows_count emptyTable [7, 8, 9]).2 []
      ((read_rows_count emptyTable [7, 8, 9]).1 rfl)⟩

/-- A row that does not reach the column index makes the inner write loop
abort. -/
theorem writeColumn_none (c : ColType) (lsr : Bool) (index : Nat) :
    ∀ rows : List (List ValueRef), (∃ row ∈ rows, row.length ≤ index) →
      writeColumn c lsr index rows = none := by
  intro rows
  induction rows with
  | nil =>
    rintro ⟨row, hmem, _⟩
    exact absurd hmem (List.not_mem_nil row)
  | cons r rest ih =>
    rintro ⟨row, hmem, hlen⟩
    rw [writeColumn]
    rcases List.mem_cons.mp hmem with heq | hmem'
    · simp only [show r[index]? = none from List.getElem?_eq_none (heq ▸ hlen)]
    · cases hr : r[index]? with
      | none => simp only [hr]
      | some v => simp only [hr, ih ⟨row, hmem', hlen⟩]

/-- A row shorter than the remaining schema makes the outer write loop
abort. -/
theorem writeColumns_none (lsr : Bool) :
    ∀ (cols : List Column) (index : Nat) (rows : List (List ValueRef)),
      cols ≠ [] → (∃ row ∈ rows, row.length < index + cols.length) →
      writeColumns lsr cols index rows = none := by
  intro cols
  induction cols with
  | nil => intro index rows h _; exact absurd rfl h
  | cons col cols ih =>
    rintro index rows _ ⟨row, hmem, hlen⟩
    rw [writeColumns]
    by_cases hshort : row.length ≤ index
    · simp only [writeColumn_none col.coltype lsr index rows ⟨row, hmem, hshort⟩]
    · have hne : cols ≠ [] := by
        intro hnil
        rw [hnil] at hlen
        simp only [List.length_cons, List.length_nil] at hlen
        omega
      have h2 : row.length < (index + 1) + cols.length := by
        rw [List.length_cons] at hlen
        omega
      cases hw : writeColumn col.coltype lsr index rows with
      | none => simp only [hw]
      | some bs => simp only [hw, ih (index + 1) rows hne ⟨row, hmem, h2⟩]

/-- C5 (amended): a row shorter than the schema is a fatal contract violation
for write_rows — the out-of-bounds cell lookup aborts (none) rather than
silently continuing — while rows at least as long as the schema always let
write_rows succeed (extra trailing cells are silently ignored). -/
theorem write_rows_mismatch_fatal (t : Table) (rows : List (List ValueRef)) :
    ((∃ row ∈ rows, row.length < t.columns.length) →
      t.write_rows rows = none) ∧
    ((∀ row ∈ rows, t.columns.length ≤ row.length) →
      ∃ bs, t.write_rows rows = some bs) := by
  constructor
  · rintro ⟨row, hmem, hlen⟩
    have hcols : t.columns ≠ [] := by
      intro h
      rw [h] at hlen
      simp at hlen
    rw [Table.write_rows]
    exact writeColumns_none t.long_string_refs t.columns 0 rows hcols
      ⟨row, hmem, by omega⟩
  · intro h
    rw [Table.write_rows]
    exact ⟨_, writeColumns_eq t.long_string_refs t.columns 0 rows
      (fun r hr => by have := h r hr; omega)⟩

/-- Counterexample for C5 as stated: a row longer than the schema (length 2
against 1 column) is a width mismatch, yet write_rows does not treat it as
fatal — it succeeds, silently ignoring the extra cell. -/
theorem write_rows_mismatch_fatal_cex :
    [ValueRef.Null, ValueRef.Null].length ≠ demoTable.columns.length ∧
    demoTable.write_rows [[ValueRef.Null, ValueRef.Null]] = some [0, 0] := by
  exact ⟨by decide, rfl⟩

/-- Witness for C5: a too-short row is fatal; a full-width row succeeds. -/
theorem write_rows_mismatch_fatal_witness :
    demoTable.write_rows [[]] = none ∧
    ∃ bs, demoTable.write_rows [[ValueRef.Int 3]] = some bs :=
  ⟨(write_rows_mismatch_fatal demoTable [[]]).1 (by decide),
    (write_rows_mismatch_fatal demoTable [[ValueRef.Int 3]]).2 (by decide)⟩
